import Mathlib

/-!
Verification of the etielle traversal-and-merge execution engine.

This file gives a shallow embedding, in Lean 4, of the core of the
etielle repository: the JSON-like value model, the traversal engine
(`_iter_traversal_nodes` / `yield_from_container` / `_resolve_path`),
the row-emission executor (`run_mapping` in `src/etielle/main.py`),
the row+instance executor (`run_mapping` in `src/etielle/executor.py`),
the transform library (`literal`, `get`, `format_id`, ...), the
dependency-graph builder of `src/etielle/fluent.py`, and — modelled from
the specification where the repository sources are not available — the
builder capability contract and the topological flush sequencer.

Python's insertion-ordered `dict` is modelled by association lists with
in-place update (`alistSet`), `None` by `JVal.null`, and Python `==` on
JSON scalars by structural equality of `JVal`.
-/

namespace Etielle

/-- JSON-like values as handled by the engine: Python `None`, booleans,
integers, strings, lists and string-keyed dicts (insertion ordered). -/
inductive JVal where
  | null
  | b (v : Bool)
  | i (v : Int)
  | s (v : String)
  | arr (xs : List JVal)
  | obj (xs : List (String × JVal))
  deriving Repr

mutual

/-- Structural (Python `==`) equality test on `JVal`. -/
def JVal.beq : JVal → JVal → Bool
  | .null, .null => true
  | .b x, .b y => x == y
  | .i x, .i y => x == y
  | .s x, .s y => x == y
  | .arr xs, .arr ys => beqListJ xs ys
  | .obj xs, .obj ys => beqObjJ xs ys
  | _, _ => false

/-- Elementwise equality test on lists of `JVal`. -/
def beqListJ : List JVal → List JVal → Bool
  | [], [] => true
  | x :: xs, y :: ys => JVal.beq x y && beqListJ xs ys
  | _, _ => false

/-- Elementwise equality test on string-keyed entry lists. -/
def beqObjJ : List (String × JVal) → List (String × JVal) → Bool
  | [], [] => true
  | (k, x) :: xs, (l, y) :: ys => k == l && JVal.beq x y && beqObjJ xs ys
  | _, _ => false

end

mutual

theorem JVal.eq_of_beq : ∀ {a b : JVal}, JVal.beq a b = true → a = b
  | .null, .null, _ => rfl
  | .b _, .b _, h => by simp [JVal.beq] at h; simp [h]
  | .i _, .i _, h => by simp [JVal.beq] at h; simp [h]
  | .s _, .s _, h => by simp [JVal.beq] at h; simp [h]
  | .arr _, .arr _, h => by
      simp only [JVal.beq] at h
      exact congrArg JVal.arr (eqList_of_beqListJ h)
  | .obj _, .obj _, h => by
      simp only [JVal.beq] at h
      exact congrArg JVal.obj (eqObj_of_beqObjJ h)

theorem eqList_of_beqListJ : ∀ {a b : List JVal}, beqListJ a b = true → a = b
  | [], [], _ => rfl
  | _ :: _, _ :: _, h => by
      simp only [beqListJ, Bool.and_eq_true] at h
      rw [JVal.eq_of_beq h.1, eqList_of_beqListJ h.2]

theorem eqObj_of_beqObjJ : ∀ {a b : List (String × JVal)}, beqObjJ a b = true → a = b
  | [], [], _ => rfl
  | (_, _) :: _, (_, _) :: _, h => by
      simp only [beqObjJ, Bool.and_eq_true, beq_iff_eq] at h
      rw [h.1.1, JVal.eq_of_beq h.1.2, eqObj_of_beqObjJ h.2]

end

mutual

theorem JVal.beq_refl : ∀ (a : JVal), JVal.beq a a = true
  | .null => rfl
  | .b _ => by simp [JVal.beq]
  | .i _ => by simp [JVal.beq]
  | .s _ => by simp [JVal.beq]
  | .arr xs => by simp only [JVal.beq]; exact beqListJ_refl xs
  | .obj xs => by simp only [JVal.beq]; exact beqObjJ_refl xs

theorem beqListJ_refl : ∀ (a : List JVal), beqListJ a a = true
  | [] => rfl
  | x :: xs => by
      simp only [beqListJ, Bool.and_eq_true]
      exact ⟨JVal.beq_refl x, beqListJ_refl xs⟩

theorem beqObjJ_refl : ∀ (a : List (String × JVal)), beqObjJ a a = true
  | [] => rfl
  | (_, x) :: xs => by
      simp only [beqObjJ, Bool.and_eq_true, beq_self_eq_true, true_and]
      exact ⟨JVal.beq_refl x, beqObjJ_refl xs⟩

end

instance : DecidableEq JVal := fun a b =>
  if h : JVal.beq a b = true then isTrue (JVal.eq_of_beq h)
  else isFalse (fun he => h (he ▸ JVal.beq_refl a))

/-- Path segments, Python `str | int` (used in `Context.path` and by
`_resolve_path`; list indices from `enumerate` are natural numbers). -/
inductive Seg where
  | str (v : String)
  | idx (n : Nat)
  deriving DecidableEq, Repr

/-- Lookup in an insertion-ordered dict modelled as an association list
(Python `d.get(k, None)` returns `none` when the key is absent). -/
def alistGet {κ α : Type} [DecidableEq κ] : List (κ × α) → κ → Option α
  | [], _ => none
  | (k, v) :: rest, k0 => if k = k0 then some v else alistGet rest k0

/-- Python `d[k] = v`: replace in place if the key exists (keeping its
insertion position), else append at the end. `d.setdefault(k, v)` when the
key is absent has the same effect as this append. -/
def alistSet {κ α : Type} [DecidableEq κ] : List (κ × α) → κ → α → List (κ × α)
  | [], k0, v0 => [(k0, v0)]
  | (k, v) :: rest, k0, v0 =>
      if k = k0 then (k, v0) :: rest else (k, v) :: alistSet rest k0 v0

/-- Python `d.update(u)`: assign every entry of `u` into `d` in order. -/
def alistUpdateAll {κ α : Type} [DecidableEq κ]
    (d : List (κ × α)) (u : List (κ × α)) : List (κ × α) :=
  u.foldl (fun acc kv => alistSet acc kv.1 kv.2) d

/-- Runtime context while traversing the JSON structure
(`Context` in `src/etielle/main.py`, frozen dataclass): `root` is the
original full payload, `node` the current node, `path` the absolute path
from root, `parent` the enclosing context, `key` the mapping key when
iterating dicts, `index` the position when iterating lists, `slots` a
scratchpad. -/
inductive Ctx where
  | mk (root : JVal) (node : JVal) (path : List Seg) (parent : Option Ctx)
      (key : Option String) (index : Option Nat) (slots : List (String × JVal))

@[simp] def Ctx.root : Ctx → JVal | .mk r _ _ _ _ _ _ => r

@[simp] def Ctx.node : Ctx → JVal | .mk _ n _ _ _ _ _ => n

@[simp] def Ctx.path : Ctx → List Seg | .mk _ _ p _ _ _ _ => p

@[simp] def Ctx.parent : Ctx → Option Ctx | .mk _ _ _ p _ _ _ => p

@[simp] def Ctx.key : Ctx → Option String | .mk _ _ _ _ k _ _ => k

@[simp] def Ctx.index : Ctx → Option Nat | .mk _ _ _ _ _ i _ => i

/-- Transforms are pure functions `Context -> value` (spec section 3;
`Transform` protocol in `src/etielle/main.py`). -/
abbrev Transform : Type := Ctx → JVal

/-- Test `part is None or part == ""` used on join-key components in both
`run_mapping` implementations. -/
def isNoneOrEmpty : JVal → Bool
  | .null => true
  | .s v => v == ""
  | _ => false

/-- Embedding of `_resolve_path` (`src/etielle/main.py` lines 93-108):
walk segments through mappings (`.get(seg, None)`) and sequences (index
in range, strings and bytes excluded); any miss or non-container returns
`None`.  The source's early `return None` is modelled by continuing the
walk with `null`, which every later segment maps to `null` again. -/
def resolvePath : JVal → List Seg → JVal
  | value, [] => value
  | .obj xs, .str k :: rest => resolvePath ((alistGet xs k).getD .null) rest
  | .obj _, .idx _ :: rest => resolvePath .null rest
  | .arr xs, .idx n :: rest =>
      if _ : n < xs.length then resolvePath ((xs.get? n).getD .null) rest else .null
  | .arr _, .str _ :: _ => .null
  | _, _ :: _ => .null

/-- Embedding of `_iter_nodes` (`src/etielle/main.py` lines 111-118):
resolve the outer container and yield one `(base context, container)`
pair. -/
def iterNodes (root : JVal) (path : List String) : List (Ctx × JVal) :=
  let container := resolvePath root (path.map Seg.str)
  [(Ctx.mk root container (path.map Seg.str) none none none [], container)]

/-- Embedding of the local `yield_from_container` closure of
`_iter_traversal_nodes` (`src/etielle/main.py` lines 275-310 and its
verbatim copy `src/etielle/executor.py` lines 14-49).  In items mode only
mappings are iterated (anything else yields nothing); in sequence mode
proper sequences (not strings/bytes) are enumerated and any other value
yields a single context wrapping the container itself. -/
def yieldFromContainer (root : JVal) (parentCtx : Ctx) (container : JVal)
    (iterateItems : Bool) : List Ctx :=
  if iterateItems then
    match container with
    | .obj xs => xs.map fun kv =>
        Ctx.mk root kv.2 (parentCtx.path ++ [Seg.str kv.1]) (some parentCtx)
          (some kv.1) none []
    | _ => []
  else
    match container with
    | .arr xs => xs.enum.map fun iv =>
        Ctx.mk root iv.2 (parentCtx.path ++ [Seg.idx iv.1]) (some parentCtx)
          none (some iv.1) []
    | _ => [Ctx.mk root container parentCtx.path (some parentCtx) none none []]

/-- Declarative traversal description (`TraversalSpec` in
`src/etielle/main.py`), generic over the emit type so the same traversal
engine serves the row-only executor of `main.py` and the row+instance
executor of `executor.py`. -/
structure TraversalSpec (ε : Type) where
  path : List String
  iterateItems : Bool
  emits : List ε
  innerPath : Option (List String)
  innerIterateItems : Option Bool

structure MappingSpec (ε : Type) where
  traversals : List (TraversalSpec ε)

/-- Embedding of `_iter_traversal_nodes` (`src/etielle/main.py` lines
273-322, identical in `src/etielle/executor.py` lines 12-61).  The Python
test `if not spec.inner_path` is true when `inner_path` is `None` or an
empty sequence; `bool(spec.inner_iterate_items)` maps `None` to `False`. -/
def iterTraversalNodes {ε : Type} (root : JVal) (spec : TraversalSpec ε) : List Ctx :=
  (iterNodes root spec.path).flatMap fun bc =>
    if (spec.innerPath.getD []).isEmpty then
      yieldFromContainer root bc.1 bc.2 spec.iterateItems
    else
      (yieldFromContainer root bc.1 bc.2 spec.iterateItems).flatMap fun outerCtx =>
        let innerContainer :=
          resolvePath outerCtx.node ((spec.innerPath.getD []).map Seg.str)
        yieldFromContainer root outerCtx innerContainer
          (spec.innerIterateItems.getD false)

/-- Named computed field of a `TableEmit` (`Field` in `src/etielle/main.py`). -/
structure Field where
  name : String
  transform : Transform

/-- Row emission: table name, computed fields, and the transforms
computing the composite join key (`TableEmit` in `src/etielle/main.py`). -/
structure TableEmit where
  table : String
  fields : List Field
  joinKeys : List Transform

/-- Accumulator row: insertion-ordered field-name-to-value mapping. -/
abbrev Row : Type := List (String × JVal)

/-- Per-table index from composite join key to accumulator row. -/
abbrev TableIndex : Type := List (List JVal × Row)

/-- The whole `table_to_index` accumulator of `run_mapping`. -/
abbrev Tables : Type := List (String × TableIndex)

/-- Body of the emit loop of `run_mapping` in `src/etielle/main.py`
(lines 336-348): compute the join-key parts, skip the emission when any
part is `None`/empty, otherwise fetch-or-create the table index and the
row for the composite key and overwrite each declared field. -/
def stepRowEmit (tables : Tables) (ctx : Ctx) (emit : TableEmit) : Tables :=
  let keyParts := emit.joinKeys.map fun tr => tr ctx
  if keyParts.any isNoneOrEmpty then tables
  else
    let index := (alistGet tables emit.table).getD []
    let row := (alistGet index keyParts).getD []
    let row := emit.fields.foldl (fun r fld => alistSet r fld.name (fld.transform ctx)) row
    alistSet tables emit.table (alistSet index keyParts row)

/-- Accumulation loop of `run_mapping` in `src/etielle/main.py` (lines
332-348): for every traversal, every yielded context and every emit, run
`stepRowEmit`. -/
def accumTables (root : JVal) (spec : MappingSpec TableEmit) : Tables :=
  spec.traversals.foldl
    (fun tables traversal =>
      (iterTraversalNodes root traversal).foldl
        (fun tables ctx =>
          traversal.emits.foldl (fun tables emit => stepRowEmit tables ctx emit) tables)
        tables)
    []

/-- Materialization of one accumulated row (`run_mapping` in
`src/etielle/main.py` lines 354-357): inject `id` from a single-component
key when the row has no explicit `id` field.  Appending at the end models
the Python assignment `data["id"] = key_tuple[0]` on a dict that does not
contain `"id"`. -/
def materializeRow (keyTuple : List JVal) (data : Row) : Row :=
  match keyTuple, alistGet data "id" with
  | [v], none => data ++ [("id", v)]
  | _, _ => data

/-- Embedding of `run_mapping` in `src/etielle/main.py` (lines 325-359):
accumulate rows per table keyed by composite join key, then convert each
table's index to the list of its rows (in key insertion order),
materializing each row. -/
def runMapping (root : JVal) (spec : MappingSpec TableEmit) : List (String × List Row) :=
  (accumTables root spec).map fun ti =>
    (ti.1, ti.2.map fun kr => materializeRow kr.1 kr.2)

/-- Embedding of `literal` / `_ensure_transform` applied to a
non-callable value (`src/etielle/main.py` lines 129-141). -/
def literal (v : JVal) : Transform := fun _ => v

/-- Embedding of `key()` (`src/etielle/main.py` lines 143-147); the
Python `Optional[str]` result is `null` or a string. -/
def keyTransform : Transform := fun ctx =>
  match ctx.key with
  | some k => .s k
  | none => .null

/-- Embedding of `index()` (`src/etielle/main.py` lines 150-154). -/
def indexTransform : Transform := fun ctx =>
  match ctx.index with
  | some n => .i n
  | none => .null

/-- Embedding of `get` (`src/etielle/main.py` lines 157-186), taking the
explicit segment sequence (the dot-separated string form is parsing sugar
producing the same segments).  The closure body walks the segments with
exactly the logic of `_resolve_path`, so it is embedded by `resolvePath`
applied to the current node. -/
def get (segments : List Seg) : Transform := fun ctx => resolvePath ctx.node segments

mutual

/-- Python `repr` of a JSON-like value (used by `str` on containers). -/
def pyRepr : JVal → String
  | .null => "None"
  | .b true => "True"
  | .b false => "False"
  | .i n => toString n
  | .s v => "\x27" ++ v ++ "\x27"
  | .arr xs => "[" ++ pyReprList xs ++ "]"
  | .obj xs => "\x7b" ++ pyReprObj xs ++ "\x7d"

/-- Comma-joined `repr` of list elements. -/
def pyReprList : List JVal → String
  | [] => ""
  | [x] => pyRepr x
  | x :: xs => pyRepr x ++ ", " ++ pyReprList xs

/-- Comma-joined `repr` of dict entries. -/
def pyReprObj : List (String × JVal) → String
  | [] => ""
  | [(k, v)] => "\x27" ++ k ++ "\x27: " ++ pyRepr v
  | (k, v) :: xs => "\x27" ++ k ++ "\x27: " ++ pyRepr v ++ ", " ++ pyReprObj xs

end

/-- Python `str(v)`: the string itself for strings, `repr`-style rendering
otherwise. -/
def pyStr : JVal → String
  | .s v => v
  | v => pyRepr v

/-- Embedding of `format_id` (`src/etielle/main.py` lines 247-254): join
with `sep` the `str` renderings of exactly those part outputs that are
neither `None` nor the empty string, in declaration order. -/
def formatId (parts : List Transform) (sep : String) : Transform := fun ctx =>
  .s (String.intercalate sep
    (((parts.map fun tr => tr ctx).filter
        fun v => !(v == JVal.null) && !(v == JVal.s "")).map pyStr))

/-- Modelled from the spec: the builder capability contract (spec section
6) is `resolveFieldName(selector) -> name`, `update(key, fieldUpdates)`,
`finalizeAll()`; the concrete builders live in `etielle/instances.py`,
which is not among the sources under verification.  `run_mapping` needs
only name resolution here; the updates forwarded through
`builder.update` are modelled as a chronological log (see `InstEntry`). -/
structure BuilderM where
  resolveFieldName : String → String

/-- Modelled from the spec: a merge policy combines the previous value of
a field with the new value (spec section 3).  Python passes
`shadow_bucket.get(field_name)`, which is `None` (`null`) when the field
was absent, so absence needs no separate representation. -/
abbrev MergePolicy : Type := JVal → JVal → JVal

/-- Field of an `InstanceEmit`: selector name plus transform (spec
section 3; `FieldSpec` in `etielle/instances.py`). -/
structure FieldSpec where
  selector : String
  transform : Transform

/-- Instance emission (spec section 3; `InstanceEmit` in
`etielle/instances.py`): table, join keys, fields, builder capability and
per-field-name merge policies. -/
structure InstanceEmit where
  table : String
  joinKeys : List Transform
  fields : List FieldSpec
  builder : BuilderM
  policies : List (String × MergePolicy)

/-- Emit union handled by `run_mapping` in `src/etielle/executor.py`:
`TableEmit` rows or `InstanceEmit` instances. -/
inductive Emit where
  | row (e : TableEmit)
  | inst (e : InstanceEmit)

/-- Join keys of either emit kind (`emit.join_keys`). -/
def Emit.joinKeys : Emit → List Transform
  | .row e => e.joinKeys
  | .inst e => e.joinKeys

/-- Per-table instance accumulation state — the `instance_tables[table]`
dict of `run_mapping` in `src/etielle/executor.py` (lines 99-106): the
builder (kept from the first emission that created the entry), the log of
updates forwarded to it, the shadow accumulator, and the shared policy
mapping. -/
structure InstEntry where
  builder : BuilderM
  log : List (List JVal × Row)
  shadow : List (List JVal × Row)
  policies : List (String × MergePolicy)

/-- State of `run_mapping` in `src/etielle/executor.py`: the classic
row index `table_to_index` plus the `instance_tables` accumulator. -/
structure ExecState where
  tables : Tables
  insts : List (String × InstEntry)

/-- Field-loop body of the instance branch (`src/etielle/executor.py`
lines 115-123): resolve the output name via the builder, compute the new
value, apply the registered merge policy (if any) to the previous value
found in the shadow bucket built so far (`None`, i.e. `null`, when
absent), and write the result into both the shadow bucket and the
updates dict. -/
def instFieldStep (builder : BuilderM) (policies : List (String × MergePolicy))
    (ctx : Ctx) (acc : Row × Row) (f : FieldSpec) : Row × Row :=
  let fieldName := builder.resolveFieldName f.selector
  let value := f.transform ctx
  let value :=
    match alistGet policies fieldName with
    | some policy => policy ((alistGet acc.1 fieldName).getD .null) value
    | none => value
  (alistSet acc.1 fieldName value, alistSet acc.2 fieldName value)

/-- Instance branch of the emit loop of `run_mapping` in
`src/etielle/executor.py` (lines 97-126), entered after the join-key
guard: fetch-or-create the table entry (whose default carries the
emission's builder and a copy of its policies), merge the emission's
policies into the shared policy set, fetch-or-create the shadow bucket
for the composite key, run the field loop (`instFieldStep`) over the
bucket and a fresh updates dict, store the final bucket back into the
shadow accumulator, and forward `(key, updates)` to the builder
(appended to its update log). -/
def stepInstEmit (insts : List (String × InstEntry)) (ctx : Ctx)
    (e : InstanceEmit) (compositeKey : List JVal) : List (String × InstEntry) :=
  let entry := (alistGet insts e.table).getD
    { builder := e.builder, log := [], shadow := [], policies := e.policies }
  let entry := { entry with policies := alistUpdateAll entry.policies e.policies }
  let bucket := (alistGet entry.shadow compositeKey).getD []
  let bu := e.fields.foldl (instFieldStep entry.builder entry.policies ctx) (bucket, [])
  alistSet insts e.table
    { entry with
        shadow := alistSet entry.shadow compositeKey bu.1
        log := entry.log ++ [(compositeKey, bu.2)] }

/-- Body of the emit loop of `run_mapping` in `src/etielle/executor.py`
(lines 82-129): compute the join-key parts, skip the emission entirely
when any part is `None`/empty, otherwise branch on the emit kind (the row
branch is lines 90-95, identical in effect to `stepRowEmit`). -/
def stepEmit (st : ExecState) (ctx : Ctx) (emit : Emit) : ExecState :=
  let keyParts := emit.joinKeys.map fun tr => tr ctx
  if keyParts.any isNoneOrEmpty then st
  else
    match emit with
    | .row e =>
        let index := (alistGet st.tables e.table).getD []
        let row := (alistGet index keyParts).getD []
        let row := e.fields.foldl
          (fun r fld => alistSet r fld.name (fld.transform ctx)) row
        { st with tables := alistSet st.tables e.table (alistSet index keyParts row) }
    | .inst e => { st with insts := stepInstEmit st.insts ctx e keyParts }

/-- Accumulation loop of `run_mapping` in `src/etielle/executor.py`
(lines 80-129).  The final conversion (row materialization as in
`runMapping`, and `builder.finalize_all()` owned by the external
builders) is not needed by the claims about accumulation. -/
def runMappingExec (root : JVal) (spec : MappingSpec Emit) : ExecState :=
  spec.traversals.foldl
    (fun st traversal =>
      (iterTraversalNodes root traversal).foldl
        (fun st ctx =>
          traversal.emits.foldl (fun st emit => stepEmit st ctx emit) st)
        st)
    { tables := [], insts := [] }

/-- Relationship record as accumulated by `PipelineBuilder.link_to`
(`src/etielle/fluent.py` lines 438-446): the child table and the parent
table of one declared many-to-one relationship. -/
structure RelDecl where
  childTable : String
  parentTable : String

/-- Loop body of `PipelineBuilder._build_dependency_graph`
(`src/etielle/fluent.py` lines 610-613): `graph.setdefault(child,
set()).add(parent)`, with the unordered Python `set` modelled as a
deduplicated list in insertion order. -/
def graphStep (graph : List (String × List String)) (rel : RelDecl) :
    List (String × List String) :=
  let parents := (alistGet graph rel.childTable).getD []
  let parents :=
    if rel.parentTable ∈ parents then parents else parents ++ [rel.parentTable]
  alistSet graph rel.childTable parents

/-- Embedding of `PipelineBuilder._build_dependency_graph`
(`src/etielle/fluent.py` lines 602-615): a mapping from child table to
the set of its parent tables. -/
def buildDependencyGraph (rels : List RelDecl) : List (String × List String) :=
  rels.foldl graphStep []

/-- Parents of a table as recorded in the dependency graph. -/
def parentsOf (graph : List (String × List String)) (n : String) : List String :=
  (alistGet graph n).getD []

/-- Modelled from the spec (section 4.5): layer extraction for
`topological_sort` from `etielle/utils.py`, a module that is not among
the sources under verification.  `remaining` holds the not-yet-ordered
tables; a table is ready when none of its declared parents is still
remaining; each round emits all ready tables, and a round with no ready
table reports a dependency cycle instead of returning any order. -/
def topoGo (graph : List (String × List String)) :
    Nat → List String → Except String (List String)
  | _, [] => .ok []
  | 0, _ :: _ => .error "dependency cycle among tables"
  | fuel + 1, remaining =>
      let ready := remaining.filter fun n =>
        (parentsOf graph n).all fun p => decide (¬ p ∈ remaining)
      if ready.isEmpty then .error "dependency cycle among tables"
      else
        match topoGo graph fuel (remaining.filter fun n => decide (¬ n ∈ ready)) with
        | .ok rest => .ok (ready ++ rest)
        | .error e => .error e

/-- Tables mentioned in the dependency graph (children and parents). -/
def mentionedTables (graph : List (String × List String)) : List String :=
  graph.foldl (fun acc g => acc ++ [g.1] ++ g.2) []

/-- Modelled from the spec (section 4.5): `topological_sort(graph,
tables)` from `etielle/utils.py`, as used by `PipelineBuilder.run`
(`src/etielle/fluent.py` lines 769-774) — compute a flush order over the
output tables with parents before children, or report a cycle as a
configuration error.  The node set covers the output tables and every
table mentioned in a relationship. -/
def topologicalSort (graph : List (String × List String)) (tables : List String) :
    Except String (List String) :=
  let nodes := (tables ++ mentionedTables graph).dedup
  topoGo graph nodes.length nodes

theorem alistGet_set_self {κ α : Type} [DecidableEq κ] (l : List (κ × α)) (k : κ) (v : α) :
    alistGet (alistSet l k v) k = some v := by
  induction l with
  | nil => simp [alistSet, alistGet]
  | cons kv rest ih =>
      by_cases h : kv.1 = k
      · simp [alistSet, alistGet, h]
      · simpa [alistSet, alistGet, h] using ih

theorem alistGet_set_ne {κ α : Type} [DecidableEq κ] (l : List (κ × α)) (k k0 : κ) (v : α)
    (h : k ≠ k0) : alistGet (alistSet l k v) k0 = alistGet l k0 := by
  induction l with
  | nil => simp [alistSet, alistGet, h]
  | cons kv rest ih =>
      by_cases hk : kv.1 = k
      · have hne : kv.1 ≠ k0 := fun hh => h (hk ▸ hh)
        simp [alistSet, alistGet, hk, hne, h]
      · by_cases hk0 : kv.1 = k0
        · simp [alistSet, alistGet, hk, hk0, Ne.symm h]
        · simpa [alistSet, alistGet, hk, hk0] using ih

theorem alistGet_append_of_none {κ α : Type} [DecidableEq κ] (l m : List (κ × α)) (k : κ)
    (h : alistGet l k = none) : alistGet (l ++ m) k = alistGet m k := by
  induction l with
  | nil => simp
  | cons kv rest ih =>
      by_cases hk : kv.1 = k
      · simp [alistGet, hk] at h
      · simp only [alistGet, hk] at h
        simpa [alistGet, hk] using ih h

theorem alistGet_append_of_some {κ α : Type} [DecidableEq κ] (l m : List (κ × α)) (k : κ)
    (v : α) (h : alistGet l k = some v) : alistGet (l ++ m) k = some v := by
  induction l with
  | nil => simp [alistGet] at h
  | cons kv rest ih =>
      by_cases hk : kv.1 = k
      · simp only [alistGet, hk, if_pos rfl] at h ⊢
        simpa [alistGet, hk] using h
      · simp only [alistGet, hk] at h
        simpa [alistGet, hk] using ih h

theorem mem_alistSet {κ α : Type} [DecidableEq κ] (l : List (κ × α)) (k : κ) (v : α) :
    ∀ x ∈ alistSet l k v, x ∈ l ∨ x = (k, v) := by
  induction l with
  | nil =>
      intro x hx
      right
      exact List.mem_singleton.mp hx
  | cons kv rest ih =>
      intro x hx
      by_cases hk : kv.1 = k
      · rw [show alistSet (kv :: rest) k v = (kv.1, v) :: rest by simp [alistSet, hk]] at hx
        rcases List.mem_cons.mp hx with hx | hx
        · right; rw [hx, hk]
        · left; exact List.mem_cons_of_mem _ hx
      · rw [show alistSet (kv :: rest) k v = kv :: alistSet rest k v by
            simp [alistSet, hk]] at hx
        rcases List.mem_cons.mp hx with hx | hx
        · left; exact hx ▸ List.mem_cons_self _ _
        · rcases ih x hx with h1 | h1
          · left; exact List.mem_cons_of_mem _ h1
          · right; exact h1

theorem fst_mem_of_alistGet_some {κ α : Type} [DecidableEq κ] (l : List (κ × α)) (k : κ)
    (v : α) (h : alistGet l k = some v) : k ∈ l.map Prod.fst := by
  induction l with
  | nil => simp [alistGet] at h
  | cons kv rest ih =>
      by_cases hk : kv.1 = k
      · simp [hk]
      · simp only [alistGet, if_neg hk] at h
        simp [ih h]

theorem alistGet_updateAll {κ α : Type} [DecidableEq κ] (d u : List (κ × α)) (k : κ)
    (hu : (u.map Prod.fst).Nodup) :
    alistGet (alistUpdateAll d u) k =
      match alistGet u k with
      | some v => some v
      | none => alistGet d k := by
  induction u generalizing d with
  | nil => simp [alistUpdateAll, alistGet]
  | cons kv rest ih =>
      simp only [List.map_cons, List.nodup_cons] at hu
      have step : alistUpdateAll d (kv :: rest) = alistUpdateAll (alistSet d kv.1 kv.2) rest := by
        simp [alistUpdateAll]
      rw [step, ih _ hu.2]
      by_cases hk : kv.1 = k
      · cases hrest : alistGet rest k with
        | none => simp [alistGet, hk, hrest, hk ▸ alistGet_set_self d kv.1 kv.2]
        | some w =>
            exact absurd (hk ▸ fst_mem_of_alistGet_some rest k w hrest) hu.1
      · cases hrest : alistGet rest k with
        | none => simp [alistGet, hk, hrest, alistGet_set_ne d kv.1 k kv.2 hk]
        | some w => simp [alistGet, hk, hrest]

end Etielle

namespace EtielleH

/-!
Store-passing embedding of `run_mapping` from `src/etielle/main.py`, used
to settle the frame claim that a run never mutates the input tree.  Here
Python's mutable containers (lists and dicts) live in an explicit heap and
are passed by reference; scalars are immediate.  The engine's own writes —
creating the fresh accumulator row dicts (`setdefault(..., {})`), the
per-field row assignments, and the `id` injection during materialization —
all go through `Heap.set`/allocation, so the theorem that every address of
the initial heap is untouched captures exactly "the input tree is never
mutated".  Transforms are pure functions reading the heap, per the spec's
Transform Layer contract (section 2, point 3).
-/

/-- Heap address of a mutable Python container. -/
abbrev Addr : Type := Nat

/-- Python runtime values: immutable scalars are immediate, containers are
references into the heap. -/
inductive HVal where
  | null
  | b (v : Bool)
  | i (v : Int)
  | s (v : String)
  | ref (a : Addr)
  deriving DecidableEq, Repr

/-- Heap objects: mutable lists and string-keyed dicts. -/
inductive HObj where
  | arr (xs : List HVal)
  | obj (xs : List (String × HVal))
  deriving DecidableEq, Repr

/-- The heap: the object at address `a` is `h[a]?`; allocation appends at
the end, so fresh addresses are exactly `h.length` and beyond. -/
abbrev Heap : Type := List HObj

/-- Dict entries of a value, when it references a dict in the heap
(`isinstance(value, Mapping)`). -/
def derefObj (h : Heap) : HVal → Option (List (String × HVal))
  | .ref a =>
      match h[a]? with
      | some (.obj xs) => some xs
      | _ => none
  | _ => none

/-- List elements of a value, when it references a list in the heap
(`isinstance(value, Sequence) and not isinstance(value, (str, bytes))`;
strings are scalars in this model, matching the source's exclusion). -/
def derefArr (h : Heap) : HVal → Option (List HVal)
  | .ref a =>
      match h[a]? with
      | some (.arr xs) => some xs
      | _ => none
  | _ => none

/-- Embedding of `_resolve_path` (`src/etielle/main.py` lines 93-108)
over the heap model; same logic as `Etielle.resolvePath` with container
checks through the heap. -/
def resolvePathH (h : Heap) : HVal → List Etielle.Seg → HVal
  | value, [] => value
  | .ref a, seg :: rest =>
      match h[a]?, seg with
      | some (.obj xs), .str k => resolvePathH h ((Etielle.alistGet xs k).getD .null) rest
      | some (.obj _), .idx _ => resolvePathH h .null rest
      | some (.arr xs), .idx n =>
          if n < xs.length then resolvePathH h ((xs.get? n).getD .null) rest else .null
      | some (.arr _), .str _ => .null
      | none, _ => .null
  | _, _ :: _ => .null

/-- Traversal context over the heap model (mirrors `Etielle.Ctx`). -/
inductive CtxH where
  | mk (root : HVal) (node : HVal) (path : List Etielle.Seg) (parent : Option CtxH)
      (key : Option String) (index : Option Nat) (slots : List (String × HVal))

@[simp] def CtxH.node : CtxH → HVal | .mk _ n _ _ _ _ _ => n

@[simp] def CtxH.path : CtxH → List Etielle.Seg | .mk _ _ p _ _ _ _ => p

/-- Transforms over the heap model: pure functions of the heap and the
context (spec section 2: "pure functions Context -> value"). -/
abbrev TransformH : Type := Heap → CtxH → HVal

/-- Join-key guard `part is None or part == ""` over heap values (a
container reference compares unequal to `""`). -/
def isNoneOrEmptyH : HVal → Bool
  | .null => true
  | .s v => v == ""
  | _ => false

/-- Embedding of `yield_from_container` over the heap model (mirrors
`Etielle.yieldFromContainer`). -/
def yieldFromContainerH (h : Heap) (root : HVal) (parentCtx : CtxH) (container : HVal)
    (iterateItems : Bool) : List CtxH :=
  if iterateItems then
    match derefObj h container with
    | some xs => xs.map fun kv =>
        CtxH.mk root kv.2 (parentCtx.path ++ [Etielle.Seg.str kv.1]) (some parentCtx)
          (some kv.1) none []
    | none => []
  else
    match derefArr h container with
    | some xs => xs.enum.map fun iv =>
        CtxH.mk root iv.2 (parentCtx.path ++ [Etielle.Seg.idx iv.1]) (some parentCtx)
          none (some iv.1) []
    | none => [CtxH.mk root container parentCtx.path (some parentCtx) none none []]

/-- Embedding of `_iter_traversal_nodes` over the heap model (mirrors
`Etielle.iterTraversalNodes`).  The generator is enumerated against the
heap current when the traversal's loop starts; the emissions interleaved
with it only write to freshly allocated row objects (the frame theorem
below), never to the containers the generator reads, so the eager
enumeration is observably the same. -/
def iterTraversalNodesH {ε : Type} (h : Heap) (root : HVal)
    (spec : Etielle.TraversalSpec ε) : List CtxH :=
  let container := resolvePathH h root (spec.path.map Etielle.Seg.str)
  let base := CtxH.mk root container (spec.path.map Etielle.Seg.str) none none none []
  if (spec.innerPath.getD []).isEmpty then
    yieldFromContainerH h root base container spec.iterateItems
  else
    (yieldFromContainerH h root base container spec.iterateItems).flatMap fun outerCtx =>
      let innerContainer :=
        resolvePathH h outerCtx.node ((spec.innerPath.getD []).map Etielle.Seg.str)
      yieldFromContainerH h root outerCtx innerContainer
        (spec.innerIterateItems.getD false)

/-- Named computed field over the heap model. -/
structure FieldH where
  name : String
  transform : TransformH

/-- Row emission over the heap model (`TableEmit`). -/
structure TableEmitH where
  table : String
  fields : List FieldH
  joinKeys : List TransformH

/-- State of `run_mapping`: the heap plus `table_to_index`, whose rows are
(mutable dict) addresses. -/
structure StateH where
  heap : Heap
  tables : List (String × List (List HVal × Addr))

/-- Python `row[name] = value` on the dict at address `a`. -/
def setObjField (h : Heap) (a : Addr) (name : String) (v : HVal) : Heap :=
  match h[a]? with
  | some (.obj xs) => h.set a (.obj (Etielle.alistSet xs name v))
  | _ => h

/-- Python `"name" in row` on the dict at address `a`. -/
def hasField (h : Heap) (a : Addr) (name : String) : Bool :=
  match h[a]? with
  | some (.obj xs) => (Etielle.alistGet xs name).isSome
  | _ => false

/-- Body of the emit loop of `run_mapping` (`src/etielle/main.py` lines
336-348) over the heap model: compute the join key, skip on `None`/empty
component, fetch-or-create the row dict for the composite key (creation
allocates a fresh empty dict, as `setdefault(composite_key, {})` does),
then assign each declared field into that dict. -/
def stepRowEmitH (st : StateH) (ctx : CtxH) (emit : TableEmitH) : StateH :=
  let keyParts := emit.joinKeys.map fun tr => tr st.heap ctx
  if keyParts.any isNoneOrEmptyH then st
  else
    let index := (Etielle.alistGet st.tables emit.table).getD []
    let allocRes : Heap × Addr :=
      match Etielle.alistGet index keyParts with
      | some a => (st.heap, a)
      | none => (st.heap ++ [.obj []], st.heap.length)
    let rowAddr := allocRes.2
    let index := Etielle.alistSet index keyParts rowAddr
    let tables := Etielle.alistSet st.tables emit.table index
    let h := emit.fields.foldl
      (fun h fld => setObjField h rowAddr fld.name (fld.transform h ctx)) allocRes.1
    { heap := h, tables := tables }

/-- Materialization of one table (`src/etielle/main.py` lines 352-358)
over the heap model: inject `id` into the row dict in place for
single-component keys lacking an `id` field, and collect the row
addresses in key insertion order. -/
def materializeTableH (h : Heap) (index : List (List HVal × Addr)) : Heap × List Addr :=
  index.foldl
    (fun acc kr =>
      match kr.1, hasField acc.1 kr.2 "id" with
      | [v], false => (setObjField acc.1 kr.2 "id" v, acc.2 ++ [kr.2])
      | _, _ => (acc.1, acc.2 ++ [kr.2]))
    (h, [])

/-- Embedding of `run_mapping` (`src/etielle/main.py` lines 325-359) over
the heap model: the accumulation loop followed by materialization,
returning the final heap and, per table, the row addresses. -/
def runMappingH (h0 : Heap) (root : HVal) (spec : Etielle.MappingSpec TableEmitH) :
    Heap × List (String × List Addr) :=
  let st := spec.traversals.foldl
    (fun st traversal =>
      (iterTraversalNodesH st.heap root traversal).foldl
        (fun st ctx =>
          traversal.emits.foldl (fun st emit => stepRowEmitH st ctx emit) st)
        st)
    { heap := h0, tables := [] }
  st.tables.foldl
    (fun acc ti =>
      let hr := materializeTableH acc.1 ti.2
      (hr.1, acc.2 ++ [(ti.1, hr.2)]))
    (st.heap, [])

/-- Readback of a heap value into a pure `Etielle.JVal` tree, bounded by
fuel (any fuel at least the tree's depth reads the full tree). -/
def readback (h : Heap) : Nat → HVal → Etielle.JVal
  | _, .null => .null
  | _, .b v => .b v
  | _, .i v => .i v
  | _, .s v => .s v
  | 0, .ref _ => .null
  | fuel + 1, .ref a =>
      match h[a]? with
      | some (.arr xs) => .arr (xs.map fun x => readback h fuel x)
      | some (.obj xs) => .obj (xs.map fun kv => (kv.1, readback h fuel kv.2))
      | none => .null

/-- Does every reference in the value point below `n`? -/
def HVal.refBelow (n : Nat) : HVal → Bool
  | .ref a => decide (a < n)
  | _ => true

/-- Do all references stored in the object point below `n`? -/
def HObj.refsBelow (n : Nat) : HObj → Bool
  | .arr xs => xs.all (HVal.refBelow n)
  | .obj xs => xs.all fun kv => HVal.refBelow n kv.2

/-- A closed heap: every stored reference points into the heap. -/
def heapClosed (h : Heap) : Bool := h.all (HObj.refsBelow h.length)

/-- The final heap extends the initial one: it is at least as long and
agrees on every initially allocated address. -/
def HeapExtends (h0 h : Heap) : Prop :=
  h0.length ≤ h.length ∧ ∀ a, a < h0.length → h[a]? = h0[a]?

/-- All row addresses recorded in the table index point at or above `n`
(they are all allocated during the run, never into the initial heap). -/
def tablesFresh (n : Nat) (tables : List (String × List (List HVal × Addr))) : Prop :=
  ∀ p ∈ tables, ∀ kr ∈ p.2, n ≤ kr.2

end EtielleH

namespace Etielle

/-- Helper: resolving any remaining path from `None` stays `None`. -/
theorem resolvePath_null : ∀ (p : List Seg), resolvePath .null p = .null
  | [] => rfl
  | _ :: _ => rfl

/-- C1: for every Context and every emit (row or instance), if any
component of the composite join key is `None` or the empty string, the
emission is skipped entirely: the executor state — row merge index,
instance shadow accumulators, policies and builder update log — is
exactly what it was before (and likewise for the row-only executor of
`main.py`). -/
theorem claim_C1_skipped_emission_is_noop :
    (∀ (st : ExecState) (ctx : Ctx) (emit : Emit),
      ((emit.joinKeys.map fun tr => tr ctx).any isNoneOrEmpty) = true →
      stepEmit st ctx emit = st)
    ∧ (∀ (tables : Tables) (ctx : Ctx) (e : TableEmit),
      ((e.joinKeys.map fun tr => tr ctx).any isNoneOrEmpty) = true →
      stepRowEmit tables ctx e = tables) := by
  constructor
  · intro st ctx emit h
    simp [stepEmit, h]
  · intro tables ctx e h
    simp [stepRowEmit, h]

def c1ctx : Ctx := .mk .null .null [] none none none []

def c1emit : Emit := .row { table := "t", fields := [], joinKeys := [literal .null] }

def c1state : ExecState := { tables := [("t", [([.i 1], [("f", .i 1)])])], insts := [] }

/-- Witness for C1: a join key with a `None` part leaves a nonempty
executor state untouched. -/
theorem claim_C1_witness : stepEmit c1state c1ctx c1emit = c1state :=
  claim_C1_skipped_emission_is_noop.1 c1state c1ctx c1emit (by decide)

/-- C4: materialization (as used by `runMapping`) injects an `id` field
equal to the key value exactly for single-component keys whose row lacks
an explicit `id`; keys of two or more components never inject, and an
explicitly set `id` is never overwritten. -/
theorem claim_C4_id_injection (kt : List JVal) (data : Row) :
    (∀ v, kt = [v] → alistGet data "id" = none →
      alistGet (materializeRow kt data) "id" = some v)
    ∧ (2 ≤ kt.length → materializeRow kt data = data)
    ∧ (∀ w, alistGet data "id" = some w → materializeRow kt data = data) := by
  refine ⟨?_, ?_, ?_⟩
  · intro v hkt hid
    subst hkt
    have hm : materializeRow [v] data = data ++ [("id", v)] := by
      simp [materializeRow, hid]
    rw [hm, alistGet_append_of_none data _ "id" hid]
    simp [alistGet]
  · intro h2
    match kt, h2 with
    | a :: b :: rest, _ =>
      cases hid : alistGet data "id" <;> simp [materializeRow]
  · intro w hw
    match kt with
    | [] => simp [materializeRow, hw]
    | [v] => simp [materializeRow, hw]
    | a :: b :: rest => cases hid : alistGet data "id" <;> simp [materializeRow]

/-- Witness for C4: single key `(5,)` injects `id = 5` into a row without
an explicit `id`. -/
theorem claim_C4_witness :
    alistGet (materializeRow [JVal.i 5] [("name", JVal.s "x")]) "id" = some (JVal.i 5) :=
  (claim_C4_id_injection [JVal.i 5] [("name", JVal.s "x")]).1 (JVal.i 5) rfl (by decide)

def c5spec : TraversalSpec TableEmit :=
  { path := ["a"], iterateItems := false, emits := [], innerPath := none,
    innerIterateItems := none }

/-- Counterexample for C5: the claim says that iterating a `None` (or any
non-container) under sequence-elements mode yields zero Contexts; the
code's `yield_from_container` instead falls back to emitting exactly one
Context wrapping the (here missing, hence `None`) container, so
traversing path `a` of the empty object in sequence mode yields one
Context whose node is `None`, not zero Contexts. -/
theorem claim_C5_counterexample :
    (iterTraversalNodes (JVal.obj []) c5spec).length ≠ 0
    ∧ (iterTraversalNodes (JVal.obj []) c5spec).length = 1
    ∧ ((iterTraversalNodes (JVal.obj []) c5spec).head?.map Ctx.node) = some JVal.null := by
  refine ⟨by decide, by decide, by decide⟩

/-- C5 (amended): a missing path resolves to `None`; iterating a
non-mapping under mapping-entries mode yields zero Contexts; iterating a
non-sequence (including `None` and strings) under sequence-elements mode
yields exactly one Context wrapping the value itself — so a string is
never iterated per character (and at the traversal level, mapping-entries
mode over a non-mapping container yields zero Contexts). -/
theorem claim_C5_amended :
    (∀ (xs : List (String × JVal)) (k : String) (rest : List Seg),
      alistGet xs k = none → resolvePath (.obj xs) (.str k :: rest) = .null)
    ∧ (∀ (root : JVal) (parentCtx : Ctx) (c : JVal), (∀ xs, c ≠ JVal.obj xs) →
      yieldFromContainer root parentCtx c true = [])
    ∧ (∀ (root : JVal) (parentCtx : Ctx) (c : JVal), (∀ xs, c ≠ JVal.arr xs) →
      yieldFromContainer root parentCtx c false =
        [Ctx.mk root c parentCtx.path (some parentCtx) none none []])
    ∧ (∀ (root : JVal) (parentCtx : Ctx) (str : String),
      yieldFromContainer root parentCtx (JVal.s str) false =
        [Ctx.mk root (JVal.s str) parentCtx.path (some parentCtx) none none []])
    ∧ (∀ (ε : Type) (root : JVal) (spec : TraversalSpec ε),
      (spec.innerPath.getD []).isEmpty = true → spec.iterateItems = true →
      (∀ xs, resolvePath root (spec.path.map Seg.str) ≠ JVal.obj xs) →
      iterTraversalNodes root spec = []) := by
  refine ⟨?_, ?_, ?_, ?_, ?_⟩
  · intro xs k rest hmiss
    simp [resolvePath, hmiss, resolvePath_null]
  · intro root parentCtx c h
    cases c with
    | obj xs => exact absurd rfl (h xs)
    | null => simp [yieldFromContainer]
    | b v => simp [yieldFromContainer]
    | i v => simp [yieldFromContainer]
    | s v => simp [yieldFromContainer]
    | arr xs => simp [yieldFromContainer]
  · intro root parentCtx c h
    cases c with
    | arr xs => exact absurd rfl (h xs)
    | null => simp [yieldFromContainer]
    | b v => simp [yieldFromContainer]
    | i v => simp [yieldFromContainer]
    | s v => simp [yieldFromContainer]
    | obj xs => simp [yieldFromContainer]
  · intro root parentCtx str
    simp [yieldFromContainer]
  · intro ε root spec hinner hitems h
    cases hres : resolvePath root (spec.path.map Seg.str) with
    | obj xs => exact absurd hres (h xs)
    | null => simp [iterTraversalNodes, iterNodes, hinner, hres, yieldFromContainer, hitems]
    | b v => simp [iterTraversalNodes, iterNodes, hinner, hres, yieldFromContainer, hitems]
    | i v => simp [iterTraversalNodes, iterNodes, hinner, hres, yieldFromContainer, hitems]
    | s v => simp [iterTraversalNodes, iterNodes, hinner, hres, yieldFromContainer, hitems]
    | arr xs => simp [iterTraversalNodes, iterNodes, hinner, hres, yieldFromContainer, hitems]

/-- Witness for C5 (amended): concrete instances of each hypothesis-bearing
conjunct. -/
theorem claim_C5_amended_witness :
    resolvePath (.obj [("b", JVal.i 1)]) (.str "a" :: []) = .null
    ∧ yieldFromContainer (JVal.obj []) c1ctx (JVal.i 3) true = [] := by
  constructor
  · exact claim_C5_amended.1 [("b", JVal.i 1)] "a" [] (by decide)
  · exact claim_C5_amended.2.1 (JVal.obj []) c1ctx (JVal.i 3) (fun xs h => by cases h)

def c8root : JVal :=
  .obj [("users", .arr [
    .obj [("id", .i 1), ("name", .s "Alice")],
    .obj [("id", .i 2), ("name", .s "Bob")]])]

def c8spec : MappingSpec TableEmit :=
  { traversals := [
      { path := ["users"], iterateItems := false,
        emits := [{ table := "users",
                    fields := [{ name := "name", transform := get [.str "name"] }],
                    joinKeys := [get [.str "id"]] }],
        innerPath := none, innerIterateItems := none }] }

/-- Python rendering of a per-table result as `run_mapping` actually
returns it: a list of row dicts. -/
def rowsAsPy (rows : List Row) : JVal := .arr (rows.map JVal.obj)

/-- Python rendering of a keyed mapping from composite key to row, the
shape the claim says `run_mapping` returns: entries pairing each key
tuple with its row dict. -/
def keyedAsPy (index : TableIndex) : JVal :=
  .arr (index.map fun kr => .arr [.arr kr.1, .obj kr.2])

/-- Counterexample for C8: on the claim's concrete input, `run_mapping`
(both in `main.py` and `executor.py`) returns for table `users` a bare
list of rows, not a keyed mapping from composite key to row — rendering
both shapes as values, the actual output differs from the claimed
`{(1,): {"id":1,"name":"Alice"}, (2,): {"id":2,"name":"Bob"}}`. -/
theorem claim_C8_counterexample :
    (alistGet (runMapping c8root c8spec) "users").map rowsAsPy ≠
      some (keyedAsPy [([.i 1], [("id", .i 1), ("name", .s "Alice")]),
                       ([.i 2], [("id", .i 2), ("name", .s "Bob")])]) := by
  decide

/-- C8 (amended): internally `run_mapping` accumulates, per table, a keyed
mapping from composite key to row; what it returns per table is the list
of materialized rows in key insertion order.  For the claim's concrete
input the internal `users` index maps `(1,)` to Alice's row and `(2,)` to
Bob's row, and the returned `users` table is the corresponding row list
with the injected `id` fields. -/
theorem claim_C8_amended :
    accumTables c8root c8spec =
      [("users", [([.i 1], [("name", .s "Alice")]),
                  ([.i 2], [("name", .s "Bob")])])]
    ∧ runMapping c8root c8spec =
      [("users", [[("name", .s "Alice"), ("id", .i 1)],
                  [("name", .s "Bob"), ("id", .i 2)]])] := by
  exact ⟨by decide, by decide⟩

def c10ctx : Ctx := .mk (.obj []) (.obj []) [] none none none []

def c10parts : List Transform := [get [.str "missing"], literal (.s "x")]

/-- C10: `format_id` joins with the separator the `str` renderings of
exactly those parts whose output is neither `None` nor the empty string,
in declaration order; consequently a single join key built with
`format_id` can pass the emission guard even when some constituent part
is missing (here: a row is created), whereas the same parts used as a
multi-component join key make the emission skip (no row is created). -/
theorem claim_C10_format_id :
    (∀ (parts : List Transform) (sep : String) (ctx : Ctx),
      formatId parts sep ctx = .s (String.intercalate sep
        (((parts.map fun tr => tr ctx).filter
            fun v => !(v == JVal.null) && !(v == JVal.s "")).map pyStr)))
    ∧ formatId c10parts "_" c10ctx = .s "x"
    ∧ isNoneOrEmpty (formatId c10parts "_" c10ctx) = false
    ∧ (c10parts.map fun tr => tr c10ctx).any isNoneOrEmpty = true
    ∧ stepRowEmit [] c10ctx { table := "t", fields := [], joinKeys := c10parts } = []
    ∧ stepRowEmit [] c10ctx
        { table := "t", fields := [], joinKeys := [formatId c10parts "_"] } =
        [("t", [([.s "x"], [])])] := by
  refine ⟨fun parts sep ctx => rfl, by decide, by decide, by decide, by decide, by decide⟩

end Etielle

namespace Etielle

/-- C2: with no inner path, a sequence-mode traversal over a list of
length N yields exactly N Contexts in order, the i-th carrying
`index = i`, no `key`, and the i-th list element as node; a
mapping-entries-mode traversal over a mapping yields exactly one Context
per entry, the i-th carrying `key` equal to the (stringified) i-th entry
key, no `index`, and the entry value as node. -/
theorem claim_C2_traversal_counts (ε : Type) (root : JVal) (spec : TraversalSpec ε)
    (hinner : (spec.innerPath.getD []).isEmpty = true) :
    (∀ xs, spec.iterateItems = false →
      resolvePath root (spec.path.map Seg.str) = .arr xs →
      (iterTraversalNodes root spec).length = xs.length ∧
      ∀ (i : Nat) (ctxv : Ctx), (iterTraversalNodes root spec)[i]? = some ctxv →
        ctxv.key = none ∧ ctxv.index = some i ∧ xs[i]? = some ctxv.node)
    ∧ (∀ es, spec.iterateItems = true →
      resolvePath root (spec.path.map Seg.str) = .obj es →
      (iterTraversalNodes root spec).length = es.length ∧
      ∀ (i : Nat) (ctxv : Ctx), (iterTraversalNodes root spec)[i]? = some ctxv →
        ctxv.index = none ∧ ∃ kv, es[i]? = some kv ∧ ctxv.key = some kv.1 ∧
          ctxv.node = kv.2) := by
  constructor
  · intro xs hseq hres
    have hiter : iterTraversalNodes root spec =
        xs.enum.map (fun iv => Ctx.mk root iv.2
          ((spec.path.map Seg.str) ++ [Seg.idx iv.1])
          (some (Ctx.mk root (JVal.arr xs) (spec.path.map Seg.str) none none none []))
          none (some iv.1) []) := by
      simp [iterTraversalNodes, iterNodes, hinner, hres, yieldFromContainer, hseq]
    constructor
    · rw [hiter]
      simp [List.enum_length]
    · intro i ctxv hget
      rw [hiter, List.getElem?_map, List.getElem?_enum] at hget
      cases he : xs[i]? with
      | none => rw [he] at hget; simp at hget
      | some a =>
          rw [he] at hget
          simp only [Option.map_some'] at hget
          have hc := Option.some.inj hget
          subst hc
          exact ⟨rfl, rfl, rfl⟩
  · intro es hitems hres
    have hiter : iterTraversalNodes root spec =
        es.map (fun kv => Ctx.mk root kv.2
          ((spec.path.map Seg.str) ++ [Seg.str kv.1])
          (some (Ctx.mk root (JVal.obj es) (spec.path.map Seg.str) none none none []))
          (some kv.1) none []) := by
      simp [iterTraversalNodes, iterNodes, hinner, hres, yieldFromContainer, hitems]
    constructor
    · rw [hiter]
      simp
    · intro i ctxv hget
      rw [hiter, List.getElem?_map] at hget
      cases he : es[i]? with
      | none => rw [he] at hget; simp at hget
      | some kv =>
          rw [he] at hget
          simp only [Option.map_some'] at hget
          have hc := Option.some.inj hget
          subst hc
          exact ⟨rfl, kv, rfl, rfl, rfl⟩

/-- Witness for C2: the sequence conjunct on a concrete two-element list
and the mapping conjunct on a concrete one-entry mapping. -/
theorem claim_C2_witness :
    ((iterTraversalNodes (JVal.obj [("a", .arr [.i 10, .i 11])])
        ({ path := ["a"], iterateItems := false, emits := [], innerPath := none,
           innerIterateItems := none } : TraversalSpec TableEmit)).length = 2)
    ∧ ((iterTraversalNodes (JVal.obj [("m", .obj [("k", .i 7)])])
        ({ path := ["m"], iterateItems := true, emits := [], innerPath := none,
           innerIterateItems := none } : TraversalSpec TableEmit)).length = 1) := by
  constructor
  · exact ((claim_C2_traversal_counts TableEmit _ _ (by decide)).1
      [.i 10, .i 11] rfl (by decide)).1
  · exact ((claim_C2_traversal_counts TableEmit _ _ (by decide)).2
      [("k", .i 7)] rfl (by decide)).1

end Etielle

namespace Etielle

/-- Value stored for a field by one instance update: the new transform
output, run through the registered merge policy (if any) against the
previous value in bucket `b` (`None` when absent). -/
def mergedValue (builder : BuilderM) (policies : List (String × MergePolicy))
    (ctx : Ctx) (b : Row) (f : FieldSpec) : JVal :=
  let n := builder.resolveFieldName f.selector
  match alistGet policies n with
  | some p => p ((alistGet b n).getD .null) (f.transform ctx)
  | none => f.transform ctx

theorem instFold_untouched (builder : BuilderM) (policies : List (String × MergePolicy))
    (ctx : Ctx) :
    ∀ (fields : List FieldSpec) (acc : Row × Row) (n : String),
      (∀ g ∈ fields, builder.resolveFieldName g.selector ≠ n) →
      alistGet (fields.foldl (instFieldStep builder policies ctx) acc).1 n =
        alistGet acc.1 n ∧
      alistGet (fields.foldl (instFieldStep builder policies ctx) acc).2 n =
        alistGet acc.2 n := by
  intro fields
  induction fields with
  | nil => intro acc n _; exact ⟨rfl, rfl⟩
  | cons f0 rest ih =>
      intro acc n h
      have h0 : builder.resolveFieldName f0.selector ≠ n :=
        h f0 (List.mem_cons_self _ _)
      have hrest : ∀ g ∈ rest, builder.resolveFieldName g.selector ≠ n :=
        fun g hg => h g (List.mem_cons_of_mem _ hg)
      rw [List.foldl_cons]
      have := ih (instFieldStep builder policies ctx acc f0) n hrest
      refine ⟨?_, ?_⟩
      · rw [this.1]
        exact alistGet_set_ne _ _ _ _ h0
      · rw [this.2]
        exact alistGet_set_ne _ _ _ _ h0

theorem instFold_spec (builder : BuilderM) (policies : List (String × MergePolicy))
    (ctx : Ctx) :
    ∀ (fields : List FieldSpec) (b u : Row),
      (fields.map fun f => builder.resolveFieldName f.selector).Nodup →
      ∀ f ∈ fields,
        alistGet (fields.foldl (instFieldStep builder policies ctx) (b, u)).1
            (builder.resolveFieldName f.selector) =
          some (mergedValue builder policies ctx b f) ∧
        alistGet (fields.foldl (instFieldStep builder policies ctx) (b, u)).2
            (builder.resolveFieldName f.selector) =
          some (mergedValue builder policies ctx b f) := by
  intro fields
  induction fields with
  | nil => intro b u _ f hf; exact absurd hf (List.not_mem_nil f)
  | cons f0 rest ih =>
      intro b u hnodup f hf
      simp only [List.map_cons, List.nodup_cons] at hnodup
      have hstep : instFieldStep builder policies ctx (b, u) f0 =
          (alistSet b (builder.resolveFieldName f0.selector)
            (mergedValue builder policies ctx b f0),
           alistSet u (builder.resolveFieldName f0.selector)
            (mergedValue builder policies ctx b f0)) := rfl
      rcases List.mem_cons.mp hf with hf0 | hfr
      · subst hf0
        have hrest : ∀ g ∈ rest, builder.resolveFieldName g.selector ≠
            builder.resolveFieldName f.selector := by
          intro g hg hEq
          exact hnodup.1 (hEq ▸ List.mem_map_of_mem _ hg)
        rw [List.foldl_cons, hstep]
        have hu := instFold_untouched builder policies ctx rest
          (alistSet b (builder.resolveFieldName f.selector)
            (mergedValue builder policies ctx b f),
           alistSet u (builder.resolveFieldName f.selector)
            (mergedValue builder policies ctx b f))
          (builder.resolveFieldName f.selector) hrest
        refine ⟨?_, ?_⟩
        · rw [hu.1]; exact alistGet_set_self _ _ _
        · rw [hu.2]; exact alistGet_set_self _ _ _
      · have hne : builder.resolveFieldName f0.selector ≠
            builder.resolveFieldName f.selector := by
          intro hEq
          exact hnodup.1 (hEq ▸ List.mem_map_of_mem _ hfr)
        rw [List.foldl_cons, hstep]
        have := ih (alistSet b (builder.resolveFieldName f0.selector)
            (mergedValue builder policies ctx b f0))
          (alistSet u (builder.resolveFieldName f0.selector)
            (mergedValue builder policies ctx b f0)) hnodup.2 f hfr
        have hmv : mergedValue builder policies ctx
            (alistSet b (builder.resolveFieldName f0.selector)
              (mergedValue builder policies ctx b f0)) f =
            mergedValue builder policies ctx b f := by
          simp only [mergedValue]
          rw [alistGet_set_ne _ _ _ _ hne]
        rw [hmv] at this
        exact this

/-- C3: one instance update on a key — if a policy is registered for the
resolved field name (in the shared policy set as updated by the current
emission), the stored value is `policy.merge(previous, new)` with
`previous` read from the table's shadow accumulator; otherwise the new
value is used directly (so with no policies, repeated Contexts on one key
overwrite field-by-field, the later Context winning).  The merged value is
written both to the shadow bucket and into the updates forwarded to the
builder, on every update during accumulation. -/
theorem claim_C3_merge_policy_semantics (insts : List (String × InstEntry)) (ctx : Ctx)
    (e : InstanceEmit) (key : List JVal) (entry0 : InstEntry)
    (hentry : (alistGet insts e.table).getD
      { builder := e.builder, log := [], shadow := [], policies := e.policies } = entry0)
    (hnodup : (e.fields.map fun f => entry0.builder.resolveFieldName f.selector).Nodup) :
    ∃ entry1,
      alistGet (stepInstEmit insts ctx e key) e.table = some entry1 ∧
      ∃ upd bucket1,
        entry1.log = entry0.log ++ [(key, upd)] ∧
        alistGet entry1.shadow key = some bucket1 ∧
        ∀ f ∈ e.fields,
          alistGet bucket1 (entry0.builder.resolveFieldName f.selector) =
            some (mergedValue entry0.builder
              (alistUpdateAll entry0.policies e.policies) ctx
              ((alistGet entry0.shadow key).getD []) f) ∧
          alistGet upd (entry0.builder.resolveFieldName f.selector) =
            some (mergedValue entry0.builder
              (alistUpdateAll entry0.policies e.policies) ctx
              ((alistGet entry0.shadow key).getD []) f) := by
  set P := alistUpdateAll entry0.policies e.policies with hP
  set BU := e.fields.foldl (instFieldStep entry0.builder P ctx)
    ((alistGet entry0.shadow key).getD [], []) with hBU
  have hstep : stepInstEmit insts ctx e key = alistSet insts e.table
      { builder := entry0.builder, log := entry0.log ++ [(key, BU.2)],
        shadow := alistSet entry0.shadow key BU.1, policies := P } := by
    simp only [stepInstEmit]
    rw [hentry]
  refine ⟨{ builder := entry0.builder, log := entry0.log ++ [(key, BU.2)],
            shadow := alistSet entry0.shadow key BU.1, policies := P },
          ?_, BU.2, BU.1, rfl, ?_, ?_⟩
  · rw [hstep]
    exact alistGet_set_self _ _ _
  · exact alistGet_set_self _ _ _
  · intro f hf
    exact instFold_spec entry0.builder P ctx e.fields
      ((alistGet entry0.shadow key).getD []) [] hnodup f hf

def c3e : InstanceEmit :=
  { table := "t", joinKeys := [literal (.s "k")],
    fields := [{ selector := "f", transform := literal (.i 2) }],
    builder := { resolveFieldName := fun sel => sel },
    policies := [("f", fun prev new =>
      match prev, new with
      | .i a, .i bv => .i (a + bv)
      | _, _ => new)] }

def c3entry0 : InstEntry :=
  { builder := c3e.builder, log := [], shadow := [], policies := c3e.policies }

/-- Witness for C3: a first update on a fresh table entry stores the
policy-merged value in both the shadow bucket and the forwarded update. -/
theorem claim_C3_witness :
    ∃ entry1,
      alistGet (stepInstEmit [] c1ctx c3e [JVal.s "k"]) c3e.table = some entry1 ∧
      ∃ upd bucket1,
        entry1.log = c3entry0.log ++ [([JVal.s "k"], upd)] ∧
        alistGet entry1.shadow [JVal.s "k"] = some bucket1 ∧
        ∀ f ∈ c3e.fields,
          alistGet bucket1 (c3entry0.builder.resolveFieldName f.selector) =
            some (mergedValue c3entry0.builder
              (alistUpdateAll c3entry0.policies c3e.policies) c1ctx
              ((alistGet c3entry0.shadow [JVal.s "k"]).getD []) f) ∧
          alistGet upd (c3entry0.builder.resolveFieldName f.selector) =
            some (mergedValue c3entry0.builder
              (alistUpdateAll c3entry0.policies c3e.policies) c1ctx
              ((alistGet c3entry0.shadow [JVal.s "k"]).getD []) f) :=
  claim_C3_merge_policy_semantics [] c1ctx c3e [JVal.s "k"] c3entry0 rfl (by decide)

def c7pol1 : MergePolicy := fun _ _ => .s "P1"

def c7pol2 : MergePolicy := fun _ _ => .s "P2"

def c7e1 : InstanceEmit :=
  { table := "t", joinKeys := [literal (.s "k")],
    fields := [{ selector := "f", transform := literal (.s "a") }],
    builder := { resolveFieldName := fun sel => sel },
    policies := [("f", c7pol1)] }

def c7e2 : InstanceEmit :=
  { table := "t", joinKeys := [literal (.s "k")],
    fields := [{ selector := "f", transform := literal (.s "b") }],
    builder := { resolveFieldName := fun sel => sel },
    policies := [("f", c7pol2)] }

def c7spec : MappingSpec Emit :=
  { traversals := [
      { path := [], iterateItems := false, emits := [.inst c7e1, .inst c7e2],
        innerPath := none, innerIterateItems := none }] }

def c7root : JVal := .arr [.null, .null]

/-- Counterexample for C7: two emissions on table `t` declare different
policies for field `f` — `c7e1` (declared first, constant `"P1"`) and
`c7e2` (declared later, constant `"P2"`).  Were the later-declared policy
in effect at each merge, every logged update for `f` would carry `"P2"`.
The actual log of builder updates over two Contexts on the same key is
`P1, P2, P1, P2`: in particular the third update — a merge on an
already-seen key performed well after both policies were declared — used
the earlier-declared policy, because each emission re-installs its own
policies into the shared set just before its own updates. -/
theorem claim_C7_counterexample :
    ((alistGet (runMappingExec c7root c7spec).insts "t").map fun en =>
        en.log.map fun kv => alistGet kv.2 "f") =
      some [some (.s "P1"), some (.s "P2"), some (.s "P1"), some (.s "P2")]
    ∧ JVal.s "P1" ≠ JVal.s "P2" := by
  exact ⟨by decide, by decide⟩

/-- C7 (amended): emissions targeting the same table share one builder
(the entry keeps the builder of the emission that created it) and one
policy set; each emission merges its declared policies into the shared
set just before its updates, so at each merge the policy in effect for a
field is the currently-processed emission's if it declares one, and
otherwise the most recently installed declaration; shadow buckets of
other keys are left untouched. -/
theorem claim_C7_amended (insts : List (String × InstEntry)) (ctx : Ctx)
    (e : InstanceEmit) (key : List JVal) (entry0 : InstEntry)
    (hentry : alistGet insts e.table = some entry0)
    (hpnodup : (e.policies.map Prod.fst).Nodup) :
    ∃ entry1,
      alistGet (stepInstEmit insts ctx e key) e.table = some entry1 ∧
      entry1.builder = entry0.builder ∧
      entry1.policies = alistUpdateAll entry0.policies e.policies ∧
      (∀ n p, alistGet e.policies n = some p → alistGet entry1.policies n = some p) ∧
      (∀ n, alistGet e.policies n = none →
        alistGet entry1.policies n = alistGet entry0.policies n) ∧
      (∀ k2, k2 ≠ key → alistGet entry1.shadow k2 = alistGet entry0.shadow k2) ∧
      ((e.fields.map fun f => entry0.builder.resolveFieldName f.selector).Nodup →
        ∀ f ∈ e.fields, ∀ p,
          alistGet e.policies (entry0.builder.resolveFieldName f.selector) = some p →
          ∃ bucket1, alistGet entry1.shadow key = some bucket1 ∧
            alistGet bucket1 (entry0.builder.resolveFieldName f.selector) =
              some (p ((alistGet ((alistGet entry0.shadow key).getD [])
                  (entry0.builder.resolveFieldName f.selector)).getD .null)
                (f.transform ctx))) := by
  have hget : (alistGet insts e.table).getD
      { builder := e.builder, log := [], shadow := [], policies := e.policies } = entry0 := by
    rw [hentry]; rfl
  set P := alistUpdateAll entry0.policies e.policies with hP
  set BU := e.fields.foldl (instFieldStep entry0.builder P ctx)
    ((alistGet entry0.shadow key).getD [], []) with hBU
  have hstep : stepInstEmit insts ctx e key = alistSet insts e.table
      { builder := entry0.builder, log := entry0.log ++ [(key, BU.2)],
        shadow := alistSet entry0.shadow key BU.1, policies := P } := by
    simp only [stepInstEmit]
    rw [hget]
  have hwin : ∀ (n : String) (p : MergePolicy), alistGet e.policies n = some p →
      alistGet P n = some p := by
    intro n p hp
    rw [hP, alistGet_updateAll entry0.policies e.policies n hpnodup, hp]
  refine ⟨{ builder := entry0.builder, log := entry0.log ++ [(key, BU.2)],
            shadow := alistSet entry0.shadow key BU.1, policies := P },
          ?_, rfl, rfl, hwin, ?_, ?_, ?_⟩
  · rw [hstep]
    exact alistGet_set_self _ _ _
  · intro n hp
    rw [hP, alistGet_updateAll entry0.policies e.policies n hpnodup, hp]
  · intro k2 hk2
    exact alistGet_set_ne _ _ _ _ (fun hEq => hk2 hEq.symm)
  · intro hnodup f hf p hp
    refine ⟨BU.1, alistGet_set_self _ _ _, ?_⟩
    have hm := (instFold_spec entry0.builder P ctx
      e.fields ((alistGet entry0.shadow key).getD []) [] hnodup f hf).1
    rw [hBU, hm]
    simp only [mergedValue]
    rw [hwin _ p hp]

def c7insts0 : List (String × InstEntry) :=
  [("t", { builder := { resolveFieldName := fun sel => sel }, log := [],
           shadow := [([JVal.s "k"], [("f", .s "old")])], policies := [("f", c7pol1)] })]

/-- Witness for C7 (amended): the second emission keeps the existing
builder and wins the policy slot for `f` at its own merge. -/
theorem claim_C7_witness :
    ∃ entry1,
      alistGet (stepInstEmit c7insts0 c1ctx c7e2 [JVal.s "k"]) c7e2.table = some entry1 ∧
      alistGet entry1.policies "f" = some c7pol2 := by
  obtain ⟨entry1, hget, _, _, hwin, _, _, _⟩ :=
    claim_C7_amended c7insts0 c1ctx c7e2 [JVal.s "k"]
      { builder := { resolveFieldName := fun sel => sel }, log := [],
        shadow := [([JVal.s "k"], [("f", .s "old")])], policies := [("f", c7pol1)] }
      rfl (by decide)
  exact ⟨entry1, hget, hwin "f" c7pol2 rfl⟩

end Etielle

namespace Etielle

theorem mem_of_alistGet_some {κ α : Type} [DecidableEq κ] (l : List (κ × α)) (k : κ) (v : α)
    (h : alistGet l k = some v) : (k, v) ∈ l := by
  induction l with
  | nil => simp [alistGet] at h
  | cons kv rest ih =>
      by_cases hk : kv.1 = k
      · simp only [alistGet, if_pos hk] at h
        have hv := Option.some.inj h
        subst hk
        subst hv
        rw [Prod.mk.eta]
        exact List.mem_cons_self _ _
      · simp only [alistGet, if_neg hk] at h
        exact List.mem_cons_of_mem _ (ih h)

theorem graphStep_mem (g : List (String × List String)) (rel : RelDecl) :
    rel.parentTable ∈ parentsOf (graphStep g rel) rel.childTable := by
  simp only [graphStep, parentsOf]
  rw [alistGet_set_self]
  by_cases hp : rel.parentTable ∈ (alistGet g rel.childTable).getD []
  · simp [hp]
  · simp [hp]

theorem graphStep_mono (g : List (String × List String)) (rel : RelDecl) (c q : String)
    (h : q ∈ parentsOf g c) : q ∈ parentsOf (graphStep g rel) c := by
  simp only [graphStep, parentsOf] at h ⊢
  by_cases hc : rel.childTable = c
  · subst hc
    rw [alistGet_set_self]
    simp only [Option.getD_some]
    by_cases hp : rel.parentTable ∈ (alistGet g rel.childTable).getD []
    · simpa [hp] using h
    · simp only [if_neg hp]
      exact List.mem_append_left _ h
  · rw [alistGet_set_ne _ _ _ _ hc]
    exact h

theorem buildGraph_mem :
    ∀ (rels : List RelDecl) (g : List (String × List String)) (rel : RelDecl),
      (rel ∈ rels ∨ rel.parentTable ∈ parentsOf g rel.childTable) →
      rel.parentTable ∈ parentsOf (rels.foldl graphStep g) rel.childTable := by
  intro rels
  induction rels with
  | nil =>
      intro g rel h
      rcases h with h | h
      · exact absurd h (List.not_mem_nil rel)
      · exact h
  | cons r rs ih =>
      intro g rel h
      rw [List.foldl_cons]
      rcases h with h | h
      · rcases List.mem_cons.mp h with h | h
        · subst h
          exact ih (graphStep g rel) rel (Or.inr (graphStep_mem g rel))
        · exact ih _ rel (Or.inl h)
      · exact ih _ rel (Or.inr (graphStep_mono g r _ _ h))

theorem mem_mentionedTables :
    ∀ (graph : List (String × List String)) (acc : List String) (x : String),
      (x ∈ acc ∨ ∃ pr ∈ graph, x = pr.1 ∨ x ∈ pr.2) →
      x ∈ graph.foldl (fun acc g => acc ++ [g.1] ++ g.2) acc := by
  intro graph
  induction graph with
  | nil =>
      intro acc x h
      rcases h with h | ⟨pr, hpr, _⟩
      · exact h
      · exact absurd hpr (List.not_mem_nil pr)
  | cons g0 gs ih =>
      intro acc x h
      rw [List.foldl_cons]
      apply ih
      rcases h with h | ⟨pr, hpr, hx⟩
      · exact Or.inl (by simp [h])
      · rcases List.mem_cons.mp hpr with hpr | hpr
        · subst hpr
          rcases hx with hx | hx
          · exact Or.inl (by simp [hx])
          · exact Or.inl (by simp [hx])
        · exact Or.inr ⟨pr, hpr, hx⟩

/-- Position of the first occurrence of a table in a flush order. -/
def posIn (x : String) : List String → Nat
  | [] => 0
  | y :: ys => if y = x then 0 else posIn x ys + 1

theorem posIn_append_left {x : String} :
    ∀ {l1 : List String} (l2 : List String), x ∈ l1 → posIn x (l1 ++ l2) < l1.length := by
  intro l1
  induction l1 with
  | nil => intro l2 h; exact absurd h (List.not_mem_nil x)
  | cons y ys ih =>
      intro l2 h
      by_cases hy : y = x
      · simp [posIn, hy]
      · have hx : x ∈ ys := by
          rcases List.mem_cons.mp h with h | h
          · exact absurd h.symm hy
          · exact h
        simp only [List.cons_append, posIn, if_neg hy, List.length_cons]
        exact Nat.succ_lt_succ (ih l2 hx)

theorem posIn_append_right {x : String} :
    ∀ {l1 : List String} (l2 : List String), x ∉ l1 →
      posIn x (l1 ++ l2) = l1.length + posIn x l2 := by
  intro l1
  induction l1 with
  | nil => intro l2 _; simp
  | cons y ys ih =>
      intro l2 h
      have hy : y ≠ x := fun hEq => h (hEq ▸ List.mem_cons_self _ _)
      have hx : x ∉ ys := fun hx => h (List.mem_cons_of_mem _ hx)
      have hstep : posIn x (y :: ys ++ l2) = posIn x (ys ++ l2) + 1 := by
        simp [posIn, hy]
      rw [hstep, ih l2 hx, List.length_cons]
      omega

theorem topoGo_mem (graph : List (String × List String)) :
    ∀ (fuel : Nat) (remaining order : List String),
      topoGo graph fuel remaining = .ok order → ∀ x, x ∈ order ↔ x ∈ remaining := by
  intro fuel
  induction fuel with
  | zero =>
      intro remaining order h x
      cases remaining with
      | nil =>
          simp only [topoGo] at h
          have := Except.ok.inj h
          subst this
          rfl
      | cons r rs => simp [topoGo] at h
  | succ fuel ih =>
      intro remaining order h x
      cases remaining with
      | nil =>
          simp only [topoGo] at h
          have := Except.ok.inj h
          subst this
          rfl
      | cons r rs =>
          simp only [topoGo] at h
          by_cases hre : ((r :: rs).filter fun n =>
              (parentsOf graph n).all fun p => decide (¬ p ∈ r :: rs)).isEmpty
          · rw [if_pos hre] at h; simp at h
          · rw [if_neg hre] at h
            cases hrec : topoGo graph fuel ((r :: rs).filter fun n =>
                decide (¬ n ∈ (r :: rs).filter fun n =>
                  (parentsOf graph n).all fun p => decide (¬ p ∈ r :: rs))) with
            | error e => rw [hrec] at h; simp at h
            | ok rest =>
                rw [hrec] at h
                have horder := Except.ok.inj h
                subst horder
                have hm := ih _ rest hrec x
                constructor
                · intro hx
                  rcases List.mem_append.mp hx with hx | hx
                  · exact (List.mem_filter.mp hx).1
                  · exact (List.mem_filter.mp (hm.mp hx)).1
                · intro hx
                  by_cases hxr : x ∈ (r :: rs).filter fun n =>
                      (parentsOf graph n).all fun p => decide (¬ p ∈ r :: rs)
                  · exact List.mem_append.mpr (Or.inl hxr)
                  · refine List.mem_append.mpr (Or.inr (hm.mpr ?_))
                    exact List.mem_filter.mpr ⟨hx, by
                      simp only [decide_eq_true_eq]
                      exact hxr⟩

theorem topoGo_order (graph : List (String × List String)) :
    ∀ (fuel : Nat) (remaining order : List String),
      topoGo graph fuel remaining = .ok order →
      ∀ c p, p ∈ parentsOf graph c → c ∈ remaining → p ∈ remaining →
        posIn p order < posIn c order := by
  intro fuel
  induction fuel with
  | zero =>
      intro remaining order h c p hedge hc hp
      cases remaining with
      | nil => exact absurd hc (List.not_mem_nil c)
      | cons r rs => simp [topoGo] at h
  | succ fuel ih =>
      intro remaining order h c p hedge hc hp
      cases remaining with
      | nil => exact absurd hc (List.not_mem_nil c)
      | cons r rs =>
          simp only [topoGo] at h
          by_cases hre : ((r :: rs).filter fun n =>
              (parentsOf graph n).all fun p => decide (¬ p ∈ r :: rs)).isEmpty
          · rw [if_pos hre] at h; simp at h
          · rw [if_neg hre] at h
            cases hrec : topoGo graph fuel ((r :: rs).filter fun n =>
                decide (¬ n ∈ (r :: rs).filter fun n =>
                  (parentsOf graph n).all fun p => decide (¬ p ∈ r :: rs))) with
            | error e => rw [hrec] at h; simp at h
            | ok rest =>
                rw [hrec] at h
                have horder := Except.ok.inj h
                subst horder
                have hcnr : c ∉ (r :: rs).filter fun n =>
                    (parentsOf graph n).all fun p => decide (¬ p ∈ r :: rs) := by
                  intro hcr
                  have hall := (List.mem_filter.mp hcr).2
                  rw [List.all_eq_true] at hall
                  have hp2 := hall p hedge
                  rw [decide_eq_true_eq] at hp2
                  exact hp2 hp
                have hcrem2 : c ∈ (r :: rs).filter fun n =>
                    decide (¬ n ∈ (r :: rs).filter fun n =>
                      (parentsOf graph n).all fun p => decide (¬ p ∈ r :: rs)) :=
                  List.mem_filter.mpr ⟨hc, by
                    simp only [decide_eq_true_eq]
                    exact hcnr⟩
                have hcrest : c ∈ rest := (topoGo_mem graph fuel _ rest hrec c).mpr hcrem2
                have hcpos := @posIn_append_right c
                  ((r :: rs).filter fun n =>
                    (parentsOf graph n).all fun p => decide (¬ p ∈ r :: rs)) rest hcnr
                by_cases hpr : p ∈ (r :: rs).filter fun n =>
                    (parentsOf graph n).all fun p => decide (¬ p ∈ r :: rs)
                · have hppos := @posIn_append_left p _ rest hpr
                  rw [hcpos]
                  exact Nat.lt_of_lt_of_le hppos (Nat.le_add_right _ _)
                · have hprem2 : p ∈ (r :: rs).filter fun n =>
                      decide (¬ n ∈ (r :: rs).filter fun n =>
                        (parentsOf graph n).all fun p => decide (¬ p ∈ r :: rs)) :=
                    List.mem_filter.mpr ⟨hp, by
                      simp only [decide_eq_true_eq]
                      exact hpr⟩
                  have hppos := @posIn_append_right p
                    ((r :: rs).filter fun n =>
                      (parentsOf graph n).all fun p => decide (¬ p ∈ r :: rs)) rest hpr
                  rw [hcpos, hppos]
                  exact Nat.add_lt_add_left (ih _ rest hrec c p hedge hcrem2 hprem2) _

/-- C6: on the dependency graph built from the declared many-to-one
relationships, the flush sequencer, when it returns an order, places every
relationship's parent table strictly before its child table (both are in
the order); and on the cyclic graph `A is parent of B, B is parent of A`
it reports a dependency-cycle error instead of any order. -/
theorem claim_C6_dependency_order :
    (∀ (rels : List RelDecl) (tables : List String) (order : List String),
      topologicalSort (buildDependencyGraph rels) tables = .ok order →
      ∀ rel ∈ rels,
        rel.parentTable ∈ order ∧ rel.childTable ∈ order ∧
        posIn rel.parentTable order < posIn rel.childTable order)
    ∧ topologicalSort (buildDependencyGraph
        [{ childTable := "B", parentTable := "A" },
         { childTable := "A", parentTable := "B" }]) ["A", "B"] =
      .error "dependency cycle among tables" := by
  constructor
  · intro rels tables order hok rel hrel
    simp only [topologicalSort] at hok
    have hedge : rel.parentTable ∈ parentsOf (buildDependencyGraph rels) rel.childTable :=
      buildGraph_mem rels [] rel (Or.inl hrel)
    have hentry : ∃ ps, alistGet (buildDependencyGraph rels) rel.childTable = some ps ∧
        rel.parentTable ∈ ps := by
      cases hga : alistGet (buildDependencyGraph rels) rel.childTable with
      | none =>
          rw [parentsOf, hga] at hedge
          exact absurd hedge (List.not_mem_nil _)
      | some ps =>
          rw [parentsOf, hga] at hedge
          exact ⟨ps, rfl, hedge⟩
    obtain ⟨ps, hga, hps⟩ := hentry
    have hpair := mem_of_alistGet_some _ _ _ hga
    have hcm : rel.childTable ∈ mentionedTables (buildDependencyGraph rels) :=
      mem_mentionedTables _ [] _ (Or.inr ⟨(rel.childTable, ps), hpair, Or.inl rfl⟩)
    have hpm : rel.parentTable ∈ mentionedTables (buildDependencyGraph rels) :=
      mem_mentionedTables _ [] _ (Or.inr ⟨(rel.childTable, ps), hpair, Or.inr hps⟩)
    have hcn : rel.childTable ∈
        (tables ++ mentionedTables (buildDependencyGraph rels)).dedup :=
      List.mem_dedup.mpr (List.mem_append_right _ hcm)
    have hpn : rel.parentTable ∈
        (tables ++ mentionedTables (buildDependencyGraph rels)).dedup :=
      List.mem_dedup.mpr (List.mem_append_right _ hpm)
    refine ⟨?_, ?_, ?_⟩
    · exact (topoGo_mem _ _ _ _ hok rel.parentTable).mpr hpn
    · exact (topoGo_mem _ _ _ _ hok rel.childTable).mpr hcn
    · exact topoGo_order _ _ _ _ hok rel.childTable rel.parentTable hedge hcn hpn
  · rfl

/-- Witness for C6: one relationship (child `posts`, parent `users`)
sequences as `users` before `posts`. -/
theorem claim_C6_witness :
    "users" ∈ ["users", "posts"] ∧ "posts" ∈ ["users", "posts"] ∧
    posIn "users" ["users", "posts"] < posIn "posts" ["users", "posts"] :=
  claim_C6_dependency_order.1 [{ childTable := "posts", parentTable := "users" }]
    ["posts", "users"] ["users", "posts"] rfl
    { childTable := "posts", parentTable := "users" } (List.mem_cons_self _ _)

end Etielle

namespace EtielleH

theorem foldl_preserves_mem {σ β : Type} (P : σ → Prop) (f : σ → β → σ) :
    ∀ (l : List β), (∀ s x, x ∈ l → P s → P (f s x)) →
      ∀ s, P s → P (l.foldl f s) := by
  intro l
  induction l with
  | nil => intro _ s hs; exact hs
  | cons x xs ih =>
      intro hf s hs
      rw [List.foldl_cons]
      exact ih (fun s y hy => hf s y (List.mem_cons_of_mem _ hy))
        (f s x) (hf s x (List.mem_cons_self _ _) hs)

theorem heapExtends_refl (h : Heap) : HeapExtends h h :=
  ⟨Nat.le_refl _, fun _ _ => rfl⟩

theorem heapExtends_alloc (h0 h : Heap) (o : HObj) (hext : HeapExtends h0 h) :
    HeapExtends h0 (h ++ [o]) := by
  refine ⟨?_, ?_⟩
  · calc h0.length ≤ h.length := hext.1
    _ ≤ (h ++ [o]).length := by simp
  · intro a ha
    rw [List.getElem?_append_left (Nat.lt_of_lt_of_le ha hext.1)]
    exact hext.2 a ha

theorem heapExtends_set (h0 h : Heap) (a : Addr) (name : String) (v : HVal)
    (hext : HeapExtends h0 h) (ha : h0.length ≤ a) :
    HeapExtends h0 (setObjField h a name v) := by
  unfold setObjField
  cases hga : h[a]? with
  | none => exact hext
  | some o =>
      cases o with
      | arr xs => exact hext
      | obj xs =>
          refine ⟨by rw [List.length_set]; exact hext.1, ?_⟩
          intro b hb
          have hne : a ≠ b := Ne.symm (Nat.ne_of_lt (Nat.lt_of_lt_of_le hb ha))
          rw [List.getElem?_set_ne hne]
          exact hext.2 b hb

/-- Run-wide invariant: the heap extends the initial heap untouched, and
every row address recorded in the table index was allocated during the
run (at or above the initial heap's length). -/
def StInv (h0 : Heap) (st : StateH) : Prop :=
  HeapExtends h0 st.heap ∧ tablesFresh h0.length st.tables

theorem stepRowEmitH_inv (h0 : Heap) (st : StateH) (ctx : CtxH) (emit : TableEmitH)
    (hinv : StInv h0 st) : StInv h0 (stepRowEmitH st ctx emit) := by
  unfold stepRowEmitH
  by_cases hskip : (emit.joinKeys.map fun tr => tr st.heap ctx).any isNoneOrEmptyH
  · simpa [hskip] using hinv
  · simp only [hskip, if_neg, Bool.false_eq_true, not_false_eq_true, if_false]
    set keyParts := emit.joinKeys.map fun tr => tr st.heap ctx with hkp
    set index0 := (Etielle.alistGet st.tables emit.table).getD [] with hidx
    have hindexFresh : ∀ kr ∈ index0, h0.length ≤ kr.2 := by
      intro kr hkr
      cases hti : Etielle.alistGet st.tables emit.table with
      | none => rw [hidx, hti] at hkr; exact absurd hkr (List.not_mem_nil kr)
      | some idx =>
          rw [hidx, hti] at hkr
          exact hinv.2 (emit.table, idx) (Etielle.mem_of_alistGet_some _ _ _ hti) kr hkr
    have halloc :
        HeapExtends h0 (match Etielle.alistGet index0 keyParts with
          | some a => (st.heap, a)
          | none => (st.heap ++ [HObj.obj []], st.heap.length) : Heap × Addr).1 ∧
        h0.length ≤ (match Etielle.alistGet index0 keyParts with
          | some a => (st.heap, a)
          | none => (st.heap ++ [HObj.obj []], st.heap.length) : Heap × Addr).2 := by
      cases hall : Etielle.alistGet index0 keyParts with
      | some a =>
          exact ⟨hinv.1, hindexFresh (keyParts, a) (Etielle.mem_of_alistGet_some _ _ _ hall)⟩
      | none => exact ⟨heapExtends_alloc h0 st.heap _ hinv.1, hinv.1.1⟩
    constructor
    · apply foldl_preserves_mem (HeapExtends h0)
        (fun h fld => setObjField h _ fld.name (fld.transform h ctx)) emit.fields
      · intro s fld _ hs
        exact heapExtends_set h0 s _ fld.name _ hs halloc.2
      · exact halloc.1
    · intro p hp kr hkr
      rcases Etielle.mem_alistSet _ _ _ p hp with hp1 | hp1
      · exact hinv.2 p hp1 kr hkr
      · rw [hp1] at hkr
        rcases Etielle.mem_alistSet _ _ _ kr hkr with hkr1 | hkr1
        · exact hindexFresh kr hkr1
        · rw [hkr1]
          exact halloc.2

theorem materializeTableH_extends (h0 : Heap) (index : List (List HVal × Addr)) :
    ∀ (acc : Heap × List Addr), HeapExtends h0 acc.1 →
      (∀ kr ∈ index, h0.length ≤ kr.2) →
      HeapExtends h0 (index.foldl
        (fun acc kr =>
          match kr.1, hasField acc.1 kr.2 "id" with
          | [v], false => (setObjField acc.1 kr.2 "id" v, acc.2 ++ [kr.2])
          | _, _ => (acc.1, acc.2 ++ [kr.2]))
        acc).1 := by
  intro acc hext hfresh
  apply foldl_preserves_mem (fun acc : Heap × List Addr => HeapExtends h0 acc.1) _ index
  · intro s kr hkr hs
    have hk := hfresh kr hkr
    cases hkt : kr.1 with
    | nil => exact hs
    | cons v vs =>
        cases vs with
        | nil =>
            cases hhf : hasField s.1 kr.2 "id" with
            | true => exact hs
            | false => exact heapExtends_set h0 s.1 kr.2 "id" v hs hk
        | cons w ws => exact hs
  · exact hext

theorem runMappingH_frame (h0 : Heap) (root : HVal)
    (spec : Etielle.MappingSpec TableEmitH) :
    HeapExtends h0 (runMappingH h0 root spec).1 := by
  unfold runMappingH
  have hst : StInv h0 (spec.traversals.foldl
      (fun st traversal =>
        (iterTraversalNodesH st.heap root traversal).foldl
          (fun st ctx =>
            traversal.emits.foldl (fun st emit => stepRowEmitH st ctx emit) st)
          st)
      { heap := h0, tables := [] }) := by
    apply foldl_preserves_mem (StInv h0) _ spec.traversals
    · intro st traversal _ hstv
      apply foldl_preserves_mem (StInv h0) _ (iterTraversalNodesH st.heap root traversal)
      · intro st2 ctx _ hst2
        apply foldl_preserves_mem (StInv h0) _ traversal.emits
        · intro st3 emit _ hst3
          exact stepRowEmitH_inv h0 st3 ctx emit hst3
        · exact hst2
      · exact hstv
    · exact ⟨heapExtends_refl h0, fun p hp => absurd hp (List.not_mem_nil p)⟩
  set st := spec.traversals.foldl
      (fun st traversal =>
        (iterTraversalNodesH st.heap root traversal).foldl
          (fun st ctx =>
            traversal.emits.foldl (fun st emit => stepRowEmitH st ctx emit) st)
          st)
      { heap := h0, tables := [] } with hstdef
  apply foldl_preserves_mem
    (fun acc : Heap × List (String × List Addr) => HeapExtends h0 acc.1) _ st.tables
  · intro acc ti hti hacc
    exact materializeTableH_extends h0 ti.2 (acc.1, []) hacc
      (fun kr hkr => hst.2 ti hti kr hkr)
  · exact hst.1

theorem readback_agree (h0 h : Heap) (hext : HeapExtends h0 h)
    (hc : heapClosed h0 = true) :
    ∀ (fuel : Nat) (v : HVal), HVal.refBelow h0.length v = true →
      readback h fuel v = readback h0 fuel v := by
  intro fuel
  induction fuel with
  | zero =>
      intro v _
      cases v <;> rfl
  | succ fuel ih =>
      intro v hv
      cases v with
      | null => rfl
      | b _ => rfl
      | i _ => rfl
      | s _ => rfl
      | ref a =>
          have ha : a < h0.length := by
            simpa [HVal.refBelow] using hv
          have hagree : h[a]? = h0[a]? := hext.2 a ha
          cases hga : h0[a]? with
          | none => simp [readback, hagree, hga]
          | some o =>
              have hom : o ∈ h0 := by
                obtain ⟨hlt, he⟩ := List.getElem?_eq_some.mp hga
                exact he ▸ List.getElem_mem hlt
              have hrefs : HObj.refsBelow h0.length o = true := by
                rw [heapClosed, List.all_eq_true] at hc
                exact hc o hom
              cases o with
              | arr xs =>
                  have hxs : ∀ x ∈ xs, HVal.refBelow h0.length x = true := by
                    rw [HObj.refsBelow, List.all_eq_true] at hrefs
                    exact hrefs
                  simp only [readback, hagree, hga]
                  exact congrArg Etielle.JVal.arr
                    (List.map_congr_left fun x hx => ih x (hxs x hx))
              | obj xs =>
                  have hxs : ∀ kv ∈ xs, HVal.refBelow h0.length kv.2 = true := by
                    rw [HObj.refsBelow, List.all_eq_true] at hrefs
                    exact hrefs
                  simp only [readback, hagree, hga]
                  refine congrArg Etielle.JVal.obj
                    (List.map_congr_left fun kv hkv => ?_)
                  rw [ih kv.2 (hxs kv hkv)]

/-- C9: a complete `run_mapping` pass never mutates the input tree: every
address of the initial heap holds exactly the same object in the final
heap (the engine only writes to row dicts it allocated itself), and
consequently the structural readback of the root value — at any depth
bound — is identical before and after the run, for every traversal spec
and every emit with pure transforms. -/
theorem claim_C9_no_input_mutation (h0 : Heap) (root : HVal)
    (spec : Etielle.MappingSpec TableEmitH) :
    (∀ a, a < h0.length → (runMappingH h0 root spec).1[a]? = h0[a]?)
    ∧ (heapClosed h0 = true → HVal.refBelow h0.length root = true →
      ∀ fuel, readback (runMappingH h0 root spec).1 fuel root =
        readback h0 fuel root) := by
  constructor
  · exact (runMappingH_frame h0 root spec).2
  · intro hc hr fuel
    exact readback_agree h0 _ (runMappingH_frame h0 root spec) hc fuel root hr

def c9heap : Heap :=
  [.obj [("users", .ref 1)],
   .arr [.ref 2],
   .obj [("id", .i 1), ("name", .s "Alice")]]

def c9spec : Etielle.MappingSpec TableEmitH :=
  { traversals := [
      { path := ["users"], iterateItems := false,
        emits := [{ table := "users",
                    fields := [{ name := "name",
                                 transform := fun h ctx =>
                                   resolvePathH h ctx.node [.str "name"] }],
                    joinKeys := [fun h ctx => resolvePathH h ctx.node [.str "id"]] }],
        innerPath := none, innerIterateItems := none }] }

/-- Witness for C9: a run over a concrete heap-allocated tree (which
creates and mutates a fresh row dict) leaves every original address and
the readback of the root unchanged. -/
theorem claim_C9_witness :
    (runMappingH c9heap (.ref 0) c9spec).1[2]? = c9heap[2]?
    ∧ readback (runMappingH c9heap (.ref 0) c9spec).1 5 (.ref 0) =
      readback c9heap 5 (.ref 0) :=
  ⟨(claim_C9_no_input_mutation c9heap (.ref 0) c9spec).1 2 (by decide),
   (claim_C9_no_input_mutation c9heap (.ref 0) c9spec).2 (by decide) (by decide) 5⟩

end EtielleH
